import Mathlib

/-!
# Fwew `lib.go`: the wildcard matcher `Glob` and the string helpers

A shallow embedding of `Glob` (src/lib.go, lines 177-229) and of the four
functions of Go's `strings` package it calls, followed by the properties the
specification states about it; then the helpers `Contains`, `ContainsStr`,
`DeleteElement`, `DeleteEmpty`, `Index`, `Reverse` and `StripChars` of the same
file, with the parts of Go they rest on (UTF-8 decoding and encoding, the
`range` loop over a string, `strings.IndexRune`, `strings.Map`).

A Go string is a sequence of bytes; a byte is a natural number (a real byte is
below 256, and nothing below depends on that bound).  The wildcard token
`GLOB = "*"` is the single byte 42.
-/

namespace Fwew

/-- A Go string: its bytes, in order. -/
abbrev Str := List Nat

/-- The UTF-8 bytes of one code point. -/
def utf8 (c : Nat) : Str :=
  if c < 128 then [c]
  else if c < 2048 then [192 + c / 64, 128 + c % 64]
  else if c < 65536 then [224 + c / 4096, 128 + c / 64 % 64, 128 + c % 64]
  else [240 + c / 262144, 128 + c / 4096 % 64, 128 + c / 64 % 64, 128 + c % 64]

/-- The Go string written as the literal `s`: the UTF-8 bytes of its characters. -/
def bytes (s : String) : Str :=
  s.toList.flatMap fun c => utf8 c.toNat

/-! ## Go's `strings` package -/

namespace strings

/-- Go: `len(s) >= len(prefix) && s[:len(prefix)] == prefix`. -/
def HasPrefix (s pre : Str) : Bool :=
  decide (pre.length ≤ s.length) && (s.take pre.length == pre)

/-- Go: `len(s) >= len(suffix) && s[len(s)-len(suffix):] == suffix`. -/
def HasSuffix (s suf : Str) : Bool :=
  decide (suf.length ≤ s.length) && (s.drop (s.length - suf.length) == suf)

/-- Go: the index of the first instance of `substr` in `s`, or -1 if `substr`
is not present in `s`.  The scan tries the offsets 0, 1, 2, ... in turn. -/
def Index : Str → Str → Int
  | [], substr => if substr = [] then 0 else -1
  | c :: t, substr =>
    if HasPrefix (c :: t) substr then 0
    else
      let r := Index t substr
      if r < 0 then -1 else r + 1

/-- The loop of Go's `genSplit`: cut at each instance of `sep`, left to right,
for at most `n` cuts; what remains is the last piece. -/
def genSplit (sep : Str) : Nat → Str → List Str
  | 0, s => [s]
  | n + 1, s =>
    let m := Index s sep
    if m < 0 then [s]
    else s.take m.toNat :: genSplit sep n (s.drop (m.toNat + sep.length))

/-- Go: `strings.Split(s, sep)` for a non-empty separator: all substrings of `s`
separated by `sep`.  A non-empty separator occurs at most `len(s)` times without
overlap, which bounds the number of cuts.  (The empty separator, which Go
splits after each UTF-8 sequence, is not used by `Glob`.) -/
def Split (s sep : Str) : List Str :=
  genSplit sep s.length s

end strings

/-! ## `Glob` -/

/-- The character which is treated like a glob: `const GLOB = "*"`. -/
def GLOB : Str := [42]

/-- How a call ends: it returns a boolean, it faults at run time (an index or a
slice bound out of range), or its loop is still running when the iteration
budget is spent. -/
inductive Outcome where
  | ret (b : Bool)
  | fault
  | exhausted
  deriving DecidableEq, Repr

/-- Go: `s[k:]`, which faults unless `0 <= k <= len(s)`. -/
def sliceFrom (s : Str) (k : Int) : Option Str :=
  if 0 ≤ k ∧ k ≤ (s.length : Int) then some (s.drop k.toNat) else none

/-- The last statement of `Glob`:
`return trailingGlob || strings.HasSuffix(subj, parts[end])`.
The index `parts[end]` is evaluated only when `trailingGlob` is false. -/
def GlobLast (parts : List Str) (trailingGlob : Bool) (end_ : Nat) (subj : Str) : Outcome :=
  if trailingGlob then .ret true
  else
    match parts[end_]? with
    | none => .fault
    | some last => .ret (strings.HasSuffix subj last)

/-- The loop `for i := 0; i < end; i++ { ... }` of `Glob` followed by its last
statement, started at the counter `i` with the current `subj`.  The first
argument is the number of iterations the loop may still run. -/
def GlobLoop (parts : List Str) (leadingGlob trailingGlob : Bool) (end_ : Nat) :
    Nat → Nat → Str → Outcome
  | 0, i, subj =>
    if i < end_ then .exhausted else GlobLast parts trailingGlob end_ subj
  | fuel + 1, i, subj =>
    if i < end_ then
      match parts[i]? with
      | none => .fault
      | some part =>
        let idx := strings.Index subj part
        let stop : Bool :=
          if i = 0 then !leadingGlob && decide (idx ≠ 0) else decide (idx < 0)
        if stop then .ret false
        else
          match sliceFrom subj (idx + (part.length : Int)) with
          | none => .fault
          | some subj' => GlobLoop parts leadingGlob trailingGlob end_ fuel (i + 1) subj'
    else GlobLast parts trailingGlob end_ subj

/-- Glob will test a string pattern, potentially containing globs, against a
subject string (src/lib.go, `func Glob`).  The loop is given `len(parts) - 1`
iterations, the number of values its counter takes below `end`.  Were `parts`
empty, `end` would be -1 in Go and `parts[end]` would fault; here `end_` is 0
and `parts[0]` faults alike. -/
def Glob (pattern subj : Str) : Outcome :=
  if pattern = [] then .ret (decide (subj = pattern))
  else if pattern = GLOB then .ret true
  else
    let parts := strings.Split pattern GLOB
    if parts.length = 1 then .ret (decide (subj = pattern))
    else
      let leadingGlob := strings.HasPrefix pattern GLOB
      let trailingGlob := strings.HasSuffix pattern GLOB
      let end_ := parts.length - 1
      GlobLoop parts leadingGlob trailingGlob end_ end_ 0 subj

/-! ## Specification-side definitions -/

/-- The subject `g_0 ++ w_1 ++ g_1 ++ ... ++ w_k ++ g_k` built from the segments
`g_0, ..., g_k` and the wildcard fillers `w_1, ..., w_k`. -/
def weave : List Str → List Str → Str
  | [], _ => []
  | g :: _, [] => g
  | g :: gs, w :: ws => g ++ w ++ weave gs ws

/-- A wildcard in front of a matcher `f`: `f` accepts some suffix of the subject. -/
def starM (f : Str → Bool) : Str → Bool
  | [] => f []
  | x :: t => f (x :: t) || starM f t

/-- The standard backtracking wildcard matcher, by recursion on the pattern. -/
def M : Str → Str → Bool
  | [], s => decide (s = [])
  | c :: p, s =>
    if c = 42 then starM (M p) s
    else
      match s with
      | [] => false
      | x :: t => decide (x = c) && M p t

/-! ## Definitions used by the proofs -/

/-- The pattern whose segments are `parts`: the segments with one `*` between
each two neighbours. -/
def joinStar : List Str → Str
  | [] => []
  | [g] => g
  | g :: g' :: gs => g ++ 42 :: joinStar (g' :: gs)

/-- The segments of a pattern, cut at each `*`, by recursion on the pattern. -/
def segments : Str → List Str
  | [] => [[]]
  | c :: t =>
    if c = 42 then [] :: segments t
    else
      match segments t with
      | [] => [[c]]
      | g :: gs => (c :: g) :: gs

/-- The subject `s` is the segments `parts` in order, with any text between
neighbours: the recursive form of `weave`. -/
def Dec : List Str → Str → Prop
  | [], _ => False
  | [g], s => s = g
  | g :: g' :: gs, s => ∃ w r, s = g ++ w ++ r ∧ Dec (g' :: gs) r

/-! ## String slices: `Contains`, `ContainsStr`, `DeleteElement`, `DeleteEmpty`, `Index`

A `[]string` is the list of its elements; a nil slice and an empty slice are
both the empty list. -/

/-- The inner loop of `Contains`: `for _, y := range s { if y == x { return true } }`. -/
def containsInner (x : Str) : List Str → Bool
  | [] => false
  | y :: ys => if y = x then true else containsInner x ys

/-- The outer loop of `Contains`: `for _, x := range q { ... }`, then `return false`. -/
def containsOuter (s : List Str) : List Str → Bool
  | [] => false
  | x :: xs => if containsInner x s then true else containsOuter s xs

/-- Contains returns true if anything in q is also in s (src/lib.go, `func Contains`). -/
def Contains (s q : List Str) : Bool :=
  if q.length = 0 ∨ s.length = 0 then false
  else containsOuter s q

/-- The loop of `ContainsStr`: `for _, x := range s { if q == x { return true } }`,
then `return false`. -/
def containsStrLoop (q : Str) : List Str → Bool
  | [] => false
  | x :: xs => if q = x then true else containsStrLoop q xs

/-- ContainsStr returns true if q is in s (src/lib.go, `func ContainsStr`). -/
def ContainsStr (s : List Str) (q : Str) : Bool :=
  if q.length = 0 ∨ s.length = 0 then false
  else containsStrLoop q s

/-- The loop of `DeleteElement`, with the slice `r` built so far:
`for _, str := range s { if str != q { r = append(r, str) } }`, then `return r`. -/
def deleteLoop (q : Str) : List Str → List Str → List Str
  | [], r => r
  | str :: rest, r => if str ≠ q then deleteLoop q rest (r ++ [str]) else deleteLoop q rest r

/-- DeleteElement "deletes" all occurrences of q in s (src/lib.go, `func DeleteElement`). -/
def DeleteElement (s : List Str) (q : Str) : List Str :=
  if s.length = 0 then s
  else deleteLoop q s []

/-- DeleteEmpty "deletes" all empty string entries in s (src/lib.go, `func DeleteEmpty`). -/
def DeleteEmpty (s : List Str) : List Str :=
  DeleteElement s []

/-- The loop of `Index` at the counter `i`:
`for i, v := range s { if v == q { return i } }`, then `return -1`. -/
def indexLoop (q : Str) : Nat → List Str → Int
  | _, [] => -1
  | i, v :: vs => if v = q then (i : Int) else indexLoop q (i + 1) vs

/-- Index return the index of q in s (src/lib.go, `func Index`). -/
def Index (s : List Str) (q : Str) : Int :=
  indexLoop q 0 s

/-! ## Runes and UTF-8, as Go's `unicode/utf8` and the language define them -/

/-- The rune U+FFFD that stands for an invalid encoding: `utf8.RuneError`.
A Go `rune` is a signed integer, here an `Int`. -/
def RuneError : Int := 65533

/-- Go: `utf8.ValidRune`: in range and not a surrogate half. -/
def ValidRune (r : Int) : Bool :=
  (decide (0 ≤ r) && decide (r < 55296)) || (decide (57343 < r) && decide (r ≤ 1114111))

/-- Go: `utf8.DecodeRuneInString`: the first rune of `s` and its width in bytes;
`(RuneError, 0)` on the empty string, `(RuneError, 1)` on an encoding that is
incorrect, out of range, or not the shortest for its value. -/
def DecodeRune : Str → Int × Nat
  | [] => (RuneError, 0)
  | s0 :: t =>
    if s0 < 128 then ((s0 : Int), 1)
    else if s0 < 194 then (RuneError, 1)
    else if s0 < 224 then
      match t with
      | s1 :: _ =>
        if 128 ≤ s1 ∧ s1 ≤ 191 then (((s0 % 32 * 64 + s1 % 64 : Nat) : Int), 2)
        else (RuneError, 1)
      | [] => (RuneError, 1)
    else if s0 < 240 then
      match t with
      | s1 :: s2 :: _ =>
        if (if s0 = 224 then 160 else 128) ≤ s1 ∧ s1 ≤ (if s0 = 237 then 159 else 191) then
          if 128 ≤ s2 ∧ s2 ≤ 191 then
            (((s0 % 16 * 4096 + s1 % 64 * 64 + s2 % 64 : Nat) : Int), 3)
          else (RuneError, 1)
        else (RuneError, 1)
      | _ => (RuneError, 1)
    else if s0 < 245 then
      match t with
      | s1 :: s2 :: s3 :: _ =>
        if (if s0 = 240 then 144 else 128) ≤ s1 ∧ s1 ≤ (if s0 = 244 then 143 else 191) then
          if 128 ≤ s2 ∧ s2 ≤ 191 then
            if 128 ≤ s3 ∧ s3 ≤ 191 then
              (((s0 % 8 * 262144 + s1 % 64 * 4096 + s2 % 64 * 64 + s3 % 64 : Nat) : Int), 4)
            else (RuneError, 1)
          else (RuneError, 1)
        else (RuneError, 1)
      | _ => (RuneError, 1)
    else (RuneError, 1)

/-- Go: the bytes `utf8.AppendRune` writes for `r`, which are also `string(r)`:
the UTF-8 encoding of `r`, or that of `RuneError` when `r` is not a valid rune. -/
def EncodeRune (r : Int) : Str :=
  if ValidRune r then utf8 r.toNat else utf8 65533

/-- Go: `string(runes)` for a `[]rune`. -/
def stringOfRunes (runes : List Int) : Str :=
  runes.flatMap EncodeRune

/-- The iterations of `for i, r := range s`, from byte offset `i` on: the pairs
`(i, r)` in order.  Each iteration consumes at least one byte, so `len(s)`
bounds their number. -/
def rangeFrom : Nat → Nat → Str → List (Nat × Int)
  | 0, _, _ => []
  | fuel + 1, i, s =>
    if s = [] then []
    else
      let d := DecodeRune s
      (i, d.1) :: rangeFrom fuel (i + d.2) (s.drop d.2)

/-- The iterations of `for i, r := range s`. -/
def rangeString (s : Str) : List (Nat × Int) :=
  rangeFrom s.length 0 s

/-! ## `Reverse` -/

/-- The loop of `Reverse` over the iterations still to run:
`for _, r := range s { n--; runes[n] = r }`.  The store faults unless
`0 <= n < len(runes)`. -/
def reverseLoop : List (Nat × Int) → Int → List Int → Option (Int × List Int)
  | [], n, runes => some (n, runes)
  | (_, r) :: rest, n, runes =>
    let n' := n - 1
    if 0 ≤ n' ∧ n' < (runes.length : Int) then reverseLoop rest n' (runes.set n'.toNat r)
    else none

/-- Go: `runes[k:]`, which faults unless `0 <= k <= len(runes)`. -/
def runesFrom (runes : List Int) (k : Int) : Option (List Int) :=
  if 0 ≤ k ∧ k ≤ (runes.length : Int) then some (runes.drop k.toNat) else none

/-- Reverse returns the reversed version of s (src/lib.go, `func Reverse`);
`none` is a run-time fault. -/
def Reverse (s : Str) : Option Str :=
  let n : Int := s.length
  let runes : List Int := List.replicate s.length 0
  match reverseLoop (rangeString s) n runes with
  | none => none
  | some (n, runes) =>
    match runesFrom runes n with
    | none => none
    | some rs => some (stringOfRunes rs)

/-! ## `StripChars` -/

namespace strings

/-- Go: `strings.IndexByte`: the index of the first instance of the byte `c`
in `s`, or -1. -/
def IndexByte (s : Str) (c : Nat) : Int :=
  Index s [c]

/-- The loop of `IndexRune` for `r == utf8.RuneError`:
`for i, r := range s { if r == utf8.RuneError { return i } }`, then `return -1`. -/
def indexError : List (Nat × Int) → Int
  | [] => -1
  | (i, r) :: rest => if r = RuneError then (i : Int) else indexError rest

/-- Go: `strings.IndexRune`: the index of the first instance of the code point
`r` in `s`, or -1. -/
def IndexRune (s : Str) (r : Int) : Int :=
  if 0 ≤ r ∧ r < 128 then IndexByte s r.toNat
  else if r = RuneError then indexError (rangeString s)
  else if !ValidRune r then -1
  else Index s (EncodeRune r)

/-- The second loop of Go's `strings.Map`, which writes each mapped rune that is
not negative: `for _, c := range s { r := mapping(c); if r >= 0 { ... } }`. -/
def mapRest (mapping : Int → Int) : Nat → Str → Str
  | 0, _ => []
  | fuel + 1, s =>
    if s = [] then []
    else
      let d := DecodeRune s
      let r := mapping d.1
      (if 0 ≤ r then (if r < 128 then [r.toNat] else EncodeRune r) else [])
        ++ mapRest mapping fuel (s.drop d.2)

/-- The first loop of Go's `strings.Map`: the runes the mapping leaves alone are
kept as their bytes in `s`; at the first rune it changes (or the first invalid
byte), the mapped rune is written if it is not negative and the second loop
takes over. -/
def mapScan (mapping : Int → Int) : Nat → Str → Str
  | 0, _ => []
  | fuel + 1, s =>
    if s = [] then []
    else
      let d := DecodeRune s
      let r := mapping d.1
      if r = d.1 ∧ (d.1 ≠ RuneError ∨ d.2 ≠ 1) then
        s.take d.2 ++ mapScan mapping fuel (s.drop d.2)
      else
        (if 0 ≤ r then EncodeRune r else []) ++ mapRest mapping fuel (s.drop d.2)

/-- Go: `strings.Map(mapping, s)`: a copy of `s` with all its characters
modified according to the mapping function; a character whose mapping is
negative is dropped. -/
def Map (mapping : Int → Int) (s : Str) : Str :=
  mapScan mapping s.length s

end strings

/-- StripChars strips all the characters in chr out of str (src/lib.go,
`func StripChars`). -/
def StripChars (str chr : Str) : Str :=
  strings.Map (fun r => if strings.IndexRune chr r < 0 then r else -1) str

/-- The UTF-8 string with the code points `cps`. -/
def encode (cps : List Nat) : Str :=
  cps.flatMap utf8

/-- A Unicode scalar value: a code point up to U+10FFFF that is no surrogate half. -/
def Scalar (c : Nat) : Prop :=
  c < 55296 ∨ (57343 < c ∧ c ≤ 1114111)

instance (c : Nat) : Decidable (Scalar c) := by
  unfold Scalar
  infer_instance

/-! ## Facts about the `strings` functions -/

theorem HasPrefix_iff (s pre : Str) : strings.HasPrefix s pre = true ↔ pre <+: s := by
  unfold strings.HasPrefix
  rw [Bool.and_eq_true, decide_eq_true_iff, beq_iff_eq, List.prefix_iff_eq_take]
  constructor
  · rintro ⟨_, h⟩
    exact h.symm
  · intro h
    refine ⟨?_, h.symm⟩
    have := congrArg List.length h
    simp at this
    omega

theorem HasSuffix_iff (s suf : Str) : strings.HasSuffix s suf = true ↔ suf <:+ s := by
  unfold strings.HasSuffix
  rw [Bool.and_eq_true, decide_eq_true_iff, beq_iff_eq, List.suffix_iff_eq_drop]
  constructor
  · rintro ⟨_, h⟩
    exact h.symm
  · intro h
    refine ⟨?_, h.symm⟩
    have := congrArg List.length h
    simp at this
    omega

theorem Index_ge (s sub : Str) : -1 ≤ strings.Index s sub := by
  induction s with
  | nil => unfold strings.Index; split <;> omega
  | cons c t ih =>
    unfold strings.Index
    split
    · omega
    · simp only
      split <;> omega

theorem Index_zero_iff (s sub : Str) : strings.Index s sub = 0 ↔ sub <+: s := by
  cases s with
  | nil =>
    unfold strings.Index
    by_cases h : sub = []
    · simp [h]
    · simp [h]
  | cons c t =>
    unfold strings.Index
    by_cases h : strings.HasPrefix (c :: t) sub = true
    · simp [h, (HasPrefix_iff _ _).1 h]
    · have h' : ¬ sub <+: c :: t := fun hp => h ((HasPrefix_iff _ _).2 hp)
      simp only [h, h', iff_false]
      have := Index_ge t sub
      simp only [Bool.false_eq_true, if_false]
      split <;> omega

/-- A found index is the length of the text in front of an instance. -/
theorem Index_found (s sub : Str) (h : 0 ≤ strings.Index s sub) :
    ∃ a b, s = a ++ sub ++ b ∧ strings.Index s sub = (a.length : Int) := by
  induction s with
  | nil =>
    unfold strings.Index at h ⊢
    by_cases hs : sub = []
    · exact ⟨[], [], by simp [hs], by simp [hs]⟩
    · simp [hs] at h
  | cons c t ih =>
    by_cases hp : strings.HasPrefix (c :: t) sub = true
    · obtain ⟨b, hb⟩ := (HasPrefix_iff _ _).1 hp
      refine ⟨[], b, by simp [hb], ?_⟩
      rw [(Index_zero_iff _ _).2 ((HasPrefix_iff _ _).1 hp)]
      simp
    · unfold strings.Index at h ⊢
      simp only [hp, Bool.false_eq_true, if_false] at h ⊢
      by_cases hr : strings.Index t sub < 0
      · simp [hr] at h
      · simp only [hr, if_false] at h ⊢
        obtain ⟨a, b, hab, hi⟩ := ih (by omega)
        refine ⟨c :: a, b, by simp [hab], ?_⟩
        rw [hi]
        simp

/-- The index found is the leftmost: no instance starts before it. -/
theorem Index_le (a sub b : Str) :
    0 ≤ strings.Index (a ++ sub ++ b) sub ∧
      strings.Index (a ++ sub ++ b) sub ≤ (a.length : Int) := by
  induction a with
  | nil =>
    have : strings.Index ([] ++ sub ++ b) sub = 0 :=
      (Index_zero_iff _ _).2 ⟨b, by simp⟩
    rw [this]
    simp
  | cons c a ih =>
    by_cases hp : strings.HasPrefix (c :: a ++ sub ++ b) sub = true
    · have : strings.Index (c :: a ++ sub ++ b) sub = 0 :=
        (Index_zero_iff _ _).2 ((HasPrefix_iff _ _).1 hp)
      rw [this]
      refine ⟨le_refl _, ?_⟩
      simp only [List.length_cons]
      push_cast
      omega
    · have e : c :: a ++ sub ++ b = c :: (a ++ sub ++ b) := by simp
      rw [e] at hp ⊢
      unfold strings.Index
      simp only [hp, Bool.false_eq_true, if_false]
      have h1 := ih.1
      have h2 := ih.2
      have h3 : ¬ strings.Index (a ++ sub ++ b) sub < 0 := by omega
      simp only [h3, if_false, List.length_cons]
      push_cast
      omega

/-! ## Splitting a pattern at the wildcard -/

theorem segments_ne_nil (p : Str) : segments p ≠ [] := by
  cases p with
  | nil => simp [segments]
  | cons c t =>
    unfold segments
    split
    · simp
    · split <;> simp

theorem segments_free (p : Str) : ∀ g ∈ segments p, 42 ∉ g := by
  induction p with
  | nil => simp [segments]
  | cons c t ih =>
    unfold segments
    split
    · intro g hg
      rcases List.mem_cons.1 hg with rfl | hg
      · simp
      · exact ih g hg
    · rename_i hc
      split
      · intro g hg
        simp only [List.mem_singleton] at hg
        subst hg
        simp only [List.mem_singleton]
        exact fun h => hc h.symm
      · rename_i g0 gs hseg
        rw [hseg] at ih
        intro g hg
        rcases List.mem_cons.1 hg with rfl | hg
        · intro h
          rcases List.mem_cons.1 h with h | h
          · exact hc h.symm
          · exact ih g0 (List.mem_cons_self _ _) h
        · exact ih g (List.mem_cons_of_mem _ hg)

theorem joinStar_segments (p : Str) : joinStar (segments p) = p := by
  induction p with
  | nil => simp [segments, joinStar]
  | cons c t ih =>
    unfold segments
    split
    · rename_i hc
      rcases hs : segments t with _ | ⟨g, gs⟩
      · exact absurd hs (segments_ne_nil t)
      · rw [hs] at ih
        simp [joinStar, ih, hc]
    · rcases hs : segments t with _ | ⟨g, gs⟩
      · exact absurd hs (segments_ne_nil t)
      · rw [hs] at ih
        cases gs with
        | nil => simpa [joinStar] using ih
        | cons g' gs =>
          simp only [joinStar] at ih ⊢
          simp [ih]

theorem Index_star (g r : Str) (hg : 42 ∉ g) :
    strings.Index (g ++ 42 :: r) [42] = (g.length : Int) := by
  induction g with
  | nil =>
    have : strings.Index ([] ++ 42 :: r) [42] = 0 :=
      (Index_zero_iff _ _).2 ⟨r, by simp⟩
    simpa using this
  | cons c g ih =>
    have hc : c ≠ 42 := fun h => hg (by simp [h])
    have hg' : 42 ∉ g := fun h => hg (List.mem_cons_of_mem _ h)
    have hp : strings.HasPrefix (c :: (g ++ 42 :: r)) [42] = false := by
      simp [strings.HasPrefix, hc]
    have e : c :: g ++ 42 :: r = c :: (g ++ 42 :: r) := by simp
    rw [e]
    unfold strings.Index
    rw [hp, ih hg']
    simp only [Bool.false_eq_true, if_false, List.length_cons]
    have : ¬ ((g.length : Int) < 0) := by omega
    simp only [this, if_false]
    push_cast
    rfl

theorem Index_no_star (g : Str) (hg : 42 ∉ g) : strings.Index g [42] = -1 := by
  induction g with
  | nil => simp [strings.Index]
  | cons c g ih =>
    have hc : c ≠ 42 := fun h => hg (by simp [h])
    have hg' : 42 ∉ g := fun h => hg (List.mem_cons_of_mem _ h)
    have hp : strings.HasPrefix (c :: g) [42] = false := by
      simp [strings.HasPrefix, hc]
    unfold strings.Index
    rw [hp, ih hg']
    simp

theorem genSplit_joinStar (parts : List Str) (hfree : ∀ g ∈ parts, 42 ∉ g) :
    ∀ n, parts ≠ [] → parts.length ≤ n + 1 →
      strings.genSplit [42] n (joinStar parts) = parts := by
  induction parts with
  | nil => intro n h; exact absurd rfl h
  | cons g gs ih =>
    intro n _ hlen
    have hg : 42 ∉ g := hfree g (List.mem_cons_self _ _)
    cases gs with
    | nil =>
      simp only [joinStar]
      cases n with
      | zero => rfl
      | succ n =>
        unfold strings.genSplit
        simp [Index_no_star g hg]
    | cons g' gs =>
      cases n with
      | zero => simp at hlen
      | succ n =>
        simp only [joinStar]
        unfold strings.genSplit
        simp only [Index_star g _ hg]
        have : ¬ ((g.length : Int) < 0) := by omega
        simp only [this, if_false, Int.toNat_ofNat, List.length_singleton]
        have h1 : List.take g.length (g ++ 42 :: joinStar (g' :: gs)) = g := by simp
        have h2 : List.drop (g.length + 1) (g ++ 42 :: joinStar (g' :: gs))
            = joinStar (g' :: gs) := by
          rw [List.drop_append_eq_append_drop]
          simp
        rw [h1, h2, ih (fun x hx => hfree x (List.mem_cons_of_mem _ hx)) n (by simp)
          (by simpa using hlen)]

theorem length_le_joinStar (parts : List Str) :
    parts.length ≤ (joinStar parts).length + 1 := by
  induction parts with
  | nil => simp
  | cons g gs ih =>
    cases gs with
    | nil => simp [joinStar]
    | cons g' gs =>
      simp only [joinStar, List.length_append, List.length_cons] at ih ⊢
      omega

theorem Split_eq_segments (p : Str) : strings.Split p GLOB = segments p := by
  have h := genSplit_joinStar (segments p) (segments_free p) p.length (segments_ne_nil p)
    (by simpa [joinStar_segments] using length_le_joinStar (segments p))
  rw [joinStar_segments] at h
  exact h

/-! ## The backtracking matcher and the decomposition of the subject -/

theorem starM_iff (f : Str → Bool) (s : Str) :
    starM f s = true ↔ ∃ w t, s = w ++ t ∧ f t = true := by
  induction s with
  | nil =>
    simp only [starM]
    constructor
    · intro h
      exact ⟨[], [], rfl, h⟩
    · rintro ⟨w, t, h, hf⟩
      have ht : t = [] := (List.append_eq_nil.1 h.symm).2
      rw [← ht]
      exact hf
  | cons x s ih =>
    simp only [starM, Bool.or_eq_true, ih]
    constructor
    · rintro (h | ⟨w, t, h, hf⟩)
      · exact ⟨[], x :: s, rfl, h⟩
      · exact ⟨x :: w, t, by simp [h], hf⟩
    · rintro ⟨w, t, h, hf⟩
      cases w with
      | nil =>
        left
        rw [h]
        exact hf
      | cons y w =>
        right
        simp only [List.cons_append, List.cons.injEq] at h
        exact ⟨w, t, h.2, hf⟩

theorem M_append_free (g q : Str) (hg : 42 ∉ g) (s : Str) :
    M (g ++ q) s = true ↔ ∃ t, s = g ++ t ∧ M q t = true := by
  induction g generalizing s with
  | nil => simp
  | cons c g ih =>
    have hc : c ≠ 42 := fun h => hg (by simp [h])
    have hg' : 42 ∉ g := fun h => hg (List.mem_cons_of_mem _ h)
    cases s with
    | nil => simp [M, hc]
    | cons x s =>
      simp only [List.cons_append, M, hc, if_false, Bool.and_eq_true, decide_eq_true_iff,
        List.cons.injEq]
      show x = c ∧ M (g ++ q) s = true ↔ _
      rw [ih hg']
      constructor
      · rintro ⟨rfl, t, rfl, hm⟩
        exact ⟨t, ⟨rfl, rfl⟩, hm⟩
      · rintro ⟨t, ⟨rfl, rfl⟩, hm⟩
        exact ⟨rfl, t, rfl, hm⟩

theorem M_free (g : Str) (hg : 42 ∉ g) (s : Str) : M g s = true ↔ s = g := by
  have h := M_append_free g [] hg s
  simp only [List.append_nil] at h
  rw [h]
  constructor
  · rintro ⟨t, rfl, ht⟩
    simp only [M, decide_eq_true_iff] at ht
    simp [ht]
  · intro h
    exact ⟨[], by simp [h], by simp [M]⟩

theorem M_joinStar (parts : List Str) (hfree : ∀ g ∈ parts, 42 ∉ g) (hne : parts ≠ []) :
    ∀ s, M (joinStar parts) s = true ↔ Dec parts s := by
  induction parts with
  | nil => exact absurd rfl hne
  | cons g gs ih =>
    have hg : 42 ∉ g := hfree g (List.mem_cons_self _ _)
    intro s
    cases gs with
    | nil => simpa [joinStar, Dec] using M_free g hg s
    | cons g' gs =>
      have ih' := ih (fun x hx => hfree x (List.mem_cons_of_mem _ hx)) (by simp)
      simp only [joinStar, Dec]
      rw [M_append_free g _ hg s]
      constructor
      · rintro ⟨t, rfl, hm⟩
        simp only [M, if_true] at hm
        obtain ⟨w, r, rfl, hr⟩ := (starM_iff _ _).1 hm
        exact ⟨w, r, by simp, (ih' r).1 hr⟩
      · rintro ⟨w, r, rfl, hd⟩
        refine ⟨w ++ r, by simp, ?_⟩
        simp only [M, if_true]
        exact (starM_iff _ _).2 ⟨w, r, rfl, (ih' r).2 hd⟩

theorem Dec_iff_weave (parts : List Str) :
    ∀ s, Dec parts s ↔ ∃ ws : List Str, ws.length + 1 = parts.length ∧ s = weave parts ws := by
  induction parts with
  | nil => intro s; simp [Dec]
  | cons g gs ih =>
    intro s
    cases gs with
    | nil =>
      simp only [Dec, List.length_singleton, add_left_eq_self, List.length_eq_zero]
      constructor
      · intro h
        exact ⟨[], rfl, by simp [weave, h]⟩
      · rintro ⟨ws, rfl, h⟩
        simpa [weave] using h
    | cons g' gs =>
      simp only [Dec]
      constructor
      · rintro ⟨w, r, rfl, hd⟩
        obtain ⟨ws, hl, rfl⟩ := (ih r).1 hd
        exact ⟨w :: ws, by simp [hl], by simp [weave]⟩
      · rintro ⟨ws, hl, rfl⟩
        cases ws with
        | nil => simp at hl
        | cons w ws =>
          refine ⟨w, weave (g' :: gs) ws, by simp [weave], (ih _).2 ⟨ws, ?_, rfl⟩⟩
          simpa using hl

/-! ## The greedy loop finds every decomposition -/

theorem Dec_star_front (L : List Str) (hL : L ≠ []) (b : Str) :
    Dec ([] :: L) b ↔ ∃ x r, b = x ++ r ∧ Dec L r := by
  cases L with
  | nil => exact absurd rfl hL
  | cons g gs => simp [Dec]

theorem Dec_cons (g : Str) (L : List Str) (hL : L ≠ []) (s : Str) :
    Dec (g :: L) s ↔ ∃ t, s = g ++ t ∧ Dec ([] :: L) t := by
  cases L with
  | nil => exact absurd rfl hL
  | cons g' gs =>
    simp only [Dec, List.nil_append]
    constructor
    · rintro ⟨w, r, rfl, hd⟩
      exact ⟨w ++ r, by simp, w, r, rfl, hd⟩
    · rintro ⟨t, rfl, w, r, rfl, hd⟩
      exact ⟨w, r, by simp, hd⟩

theorem Dec_head (g : Str) (L : List Str) (s : Str) (h : Dec (g :: L) s) : g <+: s := by
  cases L with
  | nil =>
    simp only [Dec] at h
    rw [h]
  | cons g' gs =>
    obtain ⟨w, r, rfl, _⟩ := h
    exact ⟨w ++ r, by simp⟩

/-- Cutting at the leftmost instance of a middle segment loses nothing. -/
theorem Dec_greedy (g : Str) (L : List Str) (hL : L ≠ []) (a b : Str)
    (hi : strings.Index (a ++ g ++ b) g = (a.length : Int)) :
    Dec ([] :: g :: L) (a ++ g ++ b) ↔ Dec ([] :: L) b := by
  rw [Dec_star_front (g :: L) (by simp), Dec_star_front L hL]
  constructor
  · rintro ⟨w, r, hs, hd⟩
    obtain ⟨t, rfl, ht⟩ := (Dec_cons g L hL r).1 hd
    obtain ⟨x, r', rfl, hr'⟩ := (Dec_star_front L hL t).1 ht
    have hle := (Index_le w g (x ++ r')).2
    have hs' : a ++ g ++ b = w ++ g ++ (x ++ r') := by simpa using hs
    rw [← hs', hi] at hle
    have hlen := congrArg List.length hs'
    simp only [List.length_append] at hlen
    have h1 : r' <:+ a ++ g ++ b := by
      rw [hs']
      exact ⟨w ++ g ++ x, by simp⟩
    have h2 : b <:+ a ++ g ++ b := ⟨a ++ g, rfl⟩
    obtain ⟨y, hy⟩ := List.suffix_of_suffix_length_le h1 h2 (by omega)
    exact ⟨y, r', hy.symm, hr'⟩
  · rintro ⟨x, r, rfl, hd⟩
    refine ⟨a, g ++ (x ++ r), by simp, ?_⟩
    exact (Dec_cons g L hL _).2 ⟨x ++ r, rfl, (Dec_star_front L hL _).2 ⟨x, r, rfl, hd⟩⟩

theorem sliceFrom_append (a b : Str) (k : Int) (hk : k = (a.length : Int)) :
    sliceFrom (a ++ b) k = some b := by
  subst hk
  unfold sliceFrom
  have : (0 : Int) ≤ (a.length : Int) ∧ (a.length : Int) ≤ ((a ++ b).length : Int) := by
    refine ⟨by omega, ?_⟩
    simp only [List.length_append]
    push_cast
    omega
  simp [this]

/-- The loop from a middle segment on, and the last statement. -/
theorem GlobLoop_mid (lg tg : Bool) (last : Str) (htg : tg = true → last = []) :
    ∀ (mids pre : List Str) (subj : Str) (fuel : Nat), pre ≠ [] → mids.length ≤ fuel →
      ∃ b, GlobLoop (pre ++ mids ++ [last]) lg tg (pre.length + mids.length) fuel
          pre.length subj = .ret b ∧ (b = true ↔ Dec ([] :: (mids ++ [last])) subj) := by
  intro mids
  induction mids with
  | nil =>
    intro pre subj fuel _ _
    have hlast : GlobLoop (pre ++ [] ++ [last]) lg tg (pre.length + 0) fuel pre.length subj
        = GlobLast (pre ++ [] ++ [last]) tg (pre.length + 0) subj := by
      cases fuel <;> simp [GlobLoop]
    simp only [List.length_nil] at hlast ⊢
    rw [hlast]
    unfold GlobLast
    by_cases ht : tg = true
    · refine ⟨true, by simp [ht], ?_⟩
      simp [Dec, htg ht]
    · have hget : (pre ++ [] ++ [last])[pre.length + 0]? = some last := by simp
      refine ⟨strings.HasSuffix subj last, by simp [ht, hget], ?_⟩
      rw [HasSuffix_iff]
      simp only [List.nil_append, Dec]
      constructor
      · rintro ⟨w, hw⟩
        exact ⟨w, last, hw.symm, rfl⟩
      · rintro ⟨w, r, rfl, rfl⟩
        exact ⟨w, rfl⟩
  | cons g mids ih =>
    intro pre subj fuel hpre hfuel
    cases fuel with
    | zero => simp at hfuel
    | succ fuel =>
      have hi0 : pre.length ≠ 0 := fun h => hpre (List.length_eq_zero.1 h)
      have hlt : pre.length < pre.length + (g :: mids).length := by simp
      have hget : (pre ++ g :: mids ++ [last])[pre.length]? = some g := by
        rw [List.append_assoc, List.getElem?_append_right (le_refl _)]
        simp
      have hL : mids ++ [last] ≠ [] := by simp
      unfold GlobLoop
      simp only [hlt, if_true, hget, hi0, if_false]
      by_cases hidx : strings.Index subj g < 0
      · refine ⟨false, by simp [hidx], ?_⟩
        simp only [Bool.false_eq_true, false_iff]
        intro hd
        obtain ⟨w, r, rfl, hr⟩ := (Dec_star_front _ (by simp) _).1 hd
        obtain ⟨t, rfl⟩ := Dec_head g _ r hr
        have := (Index_le w g t).1
        rw [List.append_assoc] at this
        omega
      · obtain ⟨a, b, rfl, hi⟩ := Index_found subj g (by omega)
        have hsl : sliceFrom (a ++ g ++ b) (strings.Index (a ++ g ++ b) g + (g.length : Int))
            = some b := by
          apply sliceFrom_append
          rw [hi]
          simp
        simp only [hidx, decide_False, Bool.false_eq_true, if_false, hsl]
        have e1 : pre ++ g :: mids ++ [last] = (pre ++ [g]) ++ mids ++ [last] := by simp
        have e2 : pre.length + (g :: mids).length = (pre ++ [g]).length + mids.length := by
          simp
          omega
        have e3 : pre.length + 1 = (pre ++ [g]).length := by simp
        rw [e1, e2, e3]
        obtain ⟨r, hr, hiff⟩ := ih (pre ++ [g]) b fuel (by simp) (by simpa using hfuel)
        refine ⟨r, hr, ?_⟩
        rw [hiff]
        exact (Dec_greedy g (mids ++ [last]) hL a b hi).symm

/-! ## `Glob` on a pattern given by its segments -/

theorem Split_joinStar (parts : List Str) (hfree : ∀ g ∈ parts, 42 ∉ g) (hne : parts ≠ []) :
    strings.Split (joinStar parts) GLOB = parts :=
  genSplit_joinStar parts hfree _ hne (length_le_joinStar parts)

theorem joinStar_concat (L : List Str) (hL : L ≠ []) (last : Str) :
    joinStar (L ++ [last]) = joinStar L ++ 42 :: last := by
  induction L with
  | nil => exact absurd rfl hL
  | cons g gs ih =>
    cases gs with
    | nil => simp [joinStar]
    | cons g' gs =>
      have := ih (by simp)
      simp only [List.cons_append] at this
      simp only [List.cons_append, joinStar]
      show g ++ 42 :: joinStar (g' :: (gs ++ [last])) = _
      rw [this]
      simp

theorem last_nil_of_trailing (x last : Str) (hlast : 42 ∉ last)
    (h : strings.HasSuffix (x ++ 42 :: last) GLOB = true) : last = [] := by
  rcases List.eq_nil_or_concat last with h0 | ⟨l, z, hz⟩
  · exact h0
  · exfalso
    rw [List.concat_eq_append] at hz
    subst hz
    obtain ⟨y, hy⟩ := (HasSuffix_iff _ _).1 h
    have e : x ++ 42 :: (l ++ [z]) = (x ++ 42 :: l) ++ [z] := by simp
    rw [e] at hy
    have := (List.append_inj' hy (by simp [GLOB])).2
    simp only [GLOB, List.cons.injEq, and_true] at this
    exact hlast (by simp [this])

theorem first_nil_of_leading (g r : Str) (hg : 42 ∉ g)
    (h : strings.HasPrefix (g ++ 42 :: r) GLOB = true) : g = [] := by
  cases g with
  | nil => rfl
  | cons c g =>
    exfalso
    obtain ⟨y, hy⟩ := (HasPrefix_iff _ _).1 h
    simp only [GLOB, List.cons_append, List.nil_append, List.cons.injEq] at hy
    exact hg (by simp [hy.1])

theorem Glob_parts_loop (g0 : Str) (mids : List Str) (last : Str) (s : Str)
    (hfree : ∀ g ∈ g0 :: (mids ++ [last]), 42 ∉ g)
    (hsplit : strings.Split (joinStar (g0 :: (mids ++ [last]))) GLOB = g0 :: (mids ++ [last])) :
    ∃ b, Glob (joinStar (g0 :: (mids ++ [last]))) s = .ret b ∧
      (b = true ↔ Dec (g0 :: (mids ++ [last])) s) := by
  have hg0 : 42 ∉ g0 := hfree g0 (List.mem_cons_self _ _)
  have hlastfree : 42 ∉ last := hfree last (by simp)
  have hpat : joinStar (g0 :: (mids ++ [last])) = g0 ++ 42 :: joinStar (mids ++ [last]) := by
    cases mids <;> simp [joinStar]
  have hpat' : joinStar (g0 :: (mids ++ [last])) = joinStar (g0 :: mids) ++ 42 :: last := by
    have := joinStar_concat (g0 :: mids) (by simp) last
    simpa using this
  by_cases hstar : joinStar (g0 :: (mids ++ [last])) = GLOB
  · -- the pattern is the wildcard itself
    have hlen := congrArg List.length hstar
    rw [hpat'] at hlen
    simp only [GLOB, List.length_append, List.length_cons, List.length_nil] at hlen
    have hl : last = [] := List.length_eq_zero.1 (by omega)
    have hj : joinStar (g0 :: mids) = [] := List.length_eq_zero.1 (by omega)
    have hm : mids = [] := by
      cases mids with
      | nil => rfl
      | cons m ms => simp [joinStar] at hj
    subst hm hl
    simp only [joinStar] at hj
    subst hj
    refine ⟨true, ?_, by simp [Dec]⟩
    unfold Glob
    simp [joinStar, GLOB]
  · have hnil : joinStar (g0 :: (mids ++ [last])) ≠ [] := by
      rw [hpat]
      simp
    have hlen1 : (g0 :: (mids ++ [last])).length ≠ 1 := by simp
    have hend : (g0 :: (mids ++ [last])).length - 1 = [g0].length + mids.length := by
      simp
      omega
    have hparts : g0 :: (mids ++ [last]) = [g0] ++ mids ++ [last] := by simp
    unfold Glob
    simp only [hnil, hstar, if_false, hsplit, hlen1, hend]
    have htg : strings.HasSuffix (joinStar (g0 :: (mids ++ [last]))) GLOB = true → last = [] := by
      rw [hpat']
      exact last_nil_of_trailing _ _ hlastfree
    have hlg : strings.HasPrefix (joinStar (g0 :: (mids ++ [last]))) GLOB = true → g0 = [] := by
      rw [hpat]
      exact first_nil_of_leading _ _ hg0
    generalize strings.HasSuffix (joinStar (g0 :: (mids ++ [last]))) GLOB = tg at htg ⊢
    generalize strings.HasPrefix (joinStar (g0 :: (mids ++ [last]))) GLOB = lg at hlg ⊢
    have hfuel : [g0].length + mids.length = mids.length + 1 := by simp; omega
    have hget : (g0 :: (mids ++ [last]))[0]? = some g0 := by simp
    have hlt : 0 < mids.length + 1 := by omega
    rw [hfuel]
    unfold GlobLoop
    simp only [hlt, if_true, hget]
    by_cases hpre : g0 <+: s
    · obtain ⟨t, rfl⟩ := hpre
      have hidx : strings.Index (g0 ++ t) g0 = 0 := (Index_zero_iff _ _).2 ⟨t, rfl⟩
      have hsl : sliceFrom (g0 ++ t) (0 + (g0.length : Int)) = some t :=
        sliceFrom_append _ _ _ (by simp)
      simp only [hidx, ne_eq, not_true_eq_false, decide_False, Bool.and_false,
        Bool.false_eq_true, if_false, hsl]
      obtain ⟨r, hr, hiff⟩ := GlobLoop_mid lg tg last htg mids [g0] t mids.length
        (by simp) (le_refl _)
      rw [hparts]
      have e : 0 + 1 = [g0].length := by simp
      have e' : mids.length + 1 = [g0].length + mids.length := by simp; omega
      rw [e, e']
      refine ⟨r, hr, ?_⟩
      rw [hiff]
      constructor
      · intro hd
        exact (Dec_cons g0 _ (by simp) _).2 ⟨t, rfl, hd⟩
      · intro hd
        obtain ⟨t', ht', hd'⟩ := (Dec_cons g0 _ (by simp) _).1 hd
        rw [List.append_cancel_left ht']
        exact hd'
    · have hidx : strings.Index s g0 ≠ 0 := fun h => hpre ((Index_zero_iff _ _).1 h)
      have hlgf : lg = false := by
        cases lg with
        | false => rfl
        | true =>
          exfalso
          apply hpre
          rw [hlg rfl]
          exact List.nil_prefix
      refine ⟨false, by simp [hlgf, hidx], ?_⟩
      simp only [Bool.false_eq_true, false_iff]
      exact fun hd => hpre (Dec_head g0 _ s hd)

theorem Glob_parts (parts : List Str) (hfree : ∀ g ∈ parts, 42 ∉ g) (hne : parts ≠ [])
    (s : Str) : ∃ b, Glob (joinStar parts) s = .ret b ∧ (b = true ↔ Dec parts s) := by
  have hsplit := Split_joinStar parts hfree hne
  rcases parts with _ | ⟨g0, rest⟩
  · exact absurd rfl hne
  have hg0 : 42 ∉ g0 := hfree g0 (List.mem_cons_self _ _)
  rcases List.eq_nil_or_concat rest with rfl | ⟨mids, last, hrest⟩
  rotate_left
  · rw [List.concat_eq_append] at hrest
    subst hrest
    exact Glob_parts_loop g0 mids last s hfree hsplit
  · -- no wildcard in the pattern
    simp only [joinStar] at hsplit ⊢
    have hglob : g0 ≠ GLOB := fun h => hg0 (by simp [h, GLOB])
    refine ⟨decide (s = g0), ?_, by simp [Dec]⟩
    unfold Glob
    by_cases h0 : g0 = []
    · simp [h0]
    · simp [h0, hglob, hsplit]

/-! ## `Glob` on an arbitrary pattern -/

theorem Glob_segments (p s : Str) :
    ∃ b, Glob p s = .ret b ∧ (b = true ↔ Dec (segments p) s) := by
  have h := Glob_parts (segments p) (segments_free p) (segments_ne_nil p) s
  rw [joinStar_segments] at h
  exact h

theorem M_iff_Dec (p s : Str) : M p s = true ↔ Dec (segments p) s := by
  have h := M_joinStar (segments p) (segments_free p) (segments_ne_nil p) s
  rw [joinStar_segments] at h
  exact h

theorem Glob_eq_M (p s : Str) : Glob p s = .ret (M p s) := by
  obtain ⟨b, hb, hiff⟩ := Glob_segments p s
  rw [hb]
  congr 1
  rw [Bool.eq_iff_iff, hiff, M_iff_Dec]

theorem Glob_true_iff_Dec (p s : Str) : Glob p s = .ret true ↔ Dec (segments p) s := by
  rw [Glob_eq_M, ← M_iff_Dec]
  constructor
  · intro h
    injection h
  · intro h
    rw [h]

theorem length_segments (p : Str) : (segments p).length = p.count 42 + 1 := by
  induction p with
  | nil => simp [segments]
  | cons c t ih =>
    unfold segments
    split
    · rename_i hc
      simp [ih, hc]
    · rename_i hc
      have hc' : (c == 42) = false := by simpa using hc
      rw [List.count_cons, hc']
      simp only [Bool.false_eq_true, if_false, Nat.add_zero]
      rw [← ih]
      split
      · rename_i h0
        exact absurd h0 (segments_ne_nil t)
      · rename_i g gs h0
        simp [h0]

theorem bytes_star : bytes "*" = GLOB := by decide

theorem bytes_star_star : bytes "**" = GLOB ++ GLOB := by decide

theorem Glob_true_iff_M (p s : Str) : Glob p s = .ret true ↔ M p s = true := by
  rw [Glob_true_iff_Dec, M_iff_Dec]

theorem starM_idem (f : Str → Bool) (s : Str) : starM (starM f) s = starM f s := by
  rw [Bool.eq_iff_iff, starM_iff, starM_iff]
  constructor
  · rintro ⟨w, t, rfl, ht⟩
    obtain ⟨w', t', rfl, ht'⟩ := (starM_iff _ _).1 ht
    exact ⟨w ++ w', t', by simp, ht'⟩
  · rintro ⟨w, t, rfl, ht⟩
    exact ⟨w, t, rfl, (starM_iff _ _).2 ⟨[], t, rfl, ht⟩⟩

theorem M_congr (p1 q q' : Str) (h : ∀ s, M q s = M q' s) :
    ∀ s, M (p1 ++ q) s = M (p1 ++ q') s := by
  induction p1 with
  | nil => simpa using h
  | cons c p1 ih =>
    intro s
    have hf : M (p1 ++ q) = M (p1 ++ q') := funext ih
    simp only [List.cons_append, M]
    show (if c = 42 then starM (M (p1 ++ q)) s else _) = (if c = 42 then starM (M (p1 ++ q')) s else _)
    rw [hf]
    cases s with
    | nil => rfl
    | cons x t =>
      show (if c = 42 then _ else (decide (x = c) && M (p1 ++ q) t))
        = (if c = 42 then _ else (decide (x = c) && M (p1 ++ q') t))
      rw [hf]

theorem M_star_star (q s : Str) : M (GLOB ++ GLOB ++ q) s = M (GLOB ++ q) s := by
  simp only [GLOB, List.cons_append, List.nil_append, M, if_true]
  exact starM_idem _ _

theorem Dec_last (last : Str) (L : List Str) :
    ∀ s, Dec (L ++ [last]) s → last <:+ s := by
  induction L with
  | nil =>
    intro s h
    simp only [List.nil_append, Dec] at h
    rw [h]
  | cons g L ih =>
    intro s h
    obtain ⟨t, rfl, ht⟩ := (Dec_cons g (L ++ [last]) (by simp) s).1 h
    obtain ⟨x, r, rfl, hr⟩ := (Dec_star_front (L ++ [last]) (by simp) t).1 ht
    obtain ⟨y, hy⟩ := ih r hr
    exact ⟨g ++ x ++ y, by simp [← hy]⟩

theorem takeWhile_free (g r : Str) (hg : 42 ∉ g) :
    (g ++ 42 :: r).takeWhile (· != 42) = g := by
  induction g with
  | nil => simp
  | cons c g ih =>
    have hc : c ≠ 42 := fun h => hg (by simp [h])
    have hg' : 42 ∉ g := fun h => hg (List.mem_cons_of_mem _ h)
    simp [List.takeWhile_cons, hc, ih hg']

theorem segments_shape (p : Str) (h : 42 ∈ p) :
    ∃ g0 mids last, segments p = g0 :: (mids ++ [last]) := by
  rcases hs : segments p with _ | ⟨g0, rest⟩
  · exact absurd hs (segments_ne_nil p)
  · rcases List.eq_nil_or_concat rest with rfl | ⟨mids, last, hrest⟩
    · exfalso
      have hj := joinStar_segments p
      rw [hs] at hj
      simp only [joinStar] at hj
      have := segments_free p g0 (by simp [hs])
      rw [hj] at this
      exact this h
    · rw [List.concat_eq_append] at hrest
      exact ⟨g0, mids, last, by rw [hrest]⟩

theorem first_segment (g0 : Str) (rest : List Str) (hrest : rest ≠ []) (hg0 : 42 ∉ g0) :
    (joinStar (g0 :: rest)).takeWhile (· != 42) = g0 := by
  cases rest with
  | nil => exact absurd rfl hrest
  | cons g' gs =>
    simp only [joinStar]
    exact takeWhile_free _ _ hg0

theorem last_segment (L : List Str) (hL : L ≠ []) (last : Str) (hlast : 42 ∉ last) :
    ((joinStar (L ++ [last])).reverse.takeWhile (· != 42)).reverse = last := by
  rw [joinStar_concat L hL]
  have e : (joinStar L ++ 42 :: last).reverse = last.reverse ++ 42 :: (joinStar L).reverse := by
    simp
  rw [e, takeWhile_free _ _ (by simpa using hlast)]
  simp

theorem M_eq_decide (p s : Str) (h : 42 ∉ p) : M p s = decide (p = s) := by
  rw [Bool.eq_iff_iff, M_free p h, decide_eq_true_iff]
  exact eq_comm

theorem M_star_nil (s : Str) : M GLOB s = true := by
  simp only [GLOB, M, if_true]
  exact (starM_iff _ _).2 ⟨s, [], by simp, by simp [M]⟩

/-! ## The properties of `Glob` -/

/-- C1: `strings.Split` cuts a pattern with `k` wildcard tokens into `k + 1`
literal segments `g_0, ..., g_k` (none contains `*`; joined by `*` they give the
pattern back), and `Glob` returns true if and only if the subject is
`g_0 ++ w_1 ++ g_1 ++ ... ++ w_k ++ g_k` for some strings `w_1, ..., w_k`. -/
theorem Glob_iff_weave (p s : Str) :
    (strings.Split p GLOB).length = p.count 42 + 1 ∧
    (∀ g ∈ strings.Split p GLOB, 42 ∉ g) ∧
    joinStar (strings.Split p GLOB) = p ∧
    (Glob p s = .ret true ↔
      ∃ ws : List Str, ws.length = p.count 42 ∧ s = weave (strings.Split p GLOB) ws) := by
  rw [Split_eq_segments]
  refine ⟨length_segments p, segments_free p, joinStar_segments p, ?_⟩
  rw [Glob_true_iff_Dec, Dec_iff_weave, length_segments]
  constructor
  · rintro ⟨ws, hl, hs⟩
    exact ⟨ws, by omega, hs⟩
  · rintro ⟨ws, hl, hs⟩
    exact ⟨ws, by omega, hs⟩

/-- C1 at the pattern `a*b*c` and the subject `azbzc`. -/
theorem Glob_iff_weave_witness :
    Glob (bytes "a*b*c") (bytes "azbzc") = .ret true ∧
    ∃ ws : List Str, ws.length = (bytes "a*b*c").count 42 ∧
      bytes "azbzc" = weave (strings.Split (bytes "a*b*c") GLOB) ws :=
  ⟨by decide, (Glob_iff_weave (bytes "a*b*c") (bytes "azbzc")).2.2.2.1 (by decide)⟩

/-- C2: `Glob` always returns a boolean: on every pattern and subject the run
neither faults (every `subj[idx+len(parts[i]):]` it executes has its bound
between 0 and `len(subj)`, and `parts[end]` is in range, `parts` being
non-empty) nor needs more than `len(parts) - 1` iterations of its loop. -/
theorem Glob_total (p s : Str) :
    1 ≤ (strings.Split p GLOB).length ∧
    Glob p s ≠ .fault ∧ Glob p s ≠ .exhausted ∧ ∃ b, Glob p s = .ret b := by
  refine ⟨?_, ?_, ?_, M p s, Glob_eq_M p s⟩
  · rw [Split_eq_segments, length_segments]
    omega
  · rw [Glob_eq_M]
    exact fun h => Outcome.noConfusion h
  · rw [Glob_eq_M]
    exact fun h => Outcome.noConfusion h

/-- C3: on a pattern without a wildcard token, `Glob` returns true if and only
if the pattern equals the subject. -/
theorem Glob_no_wildcard (p s : Str) (h : 42 ∉ p) : Glob p s = .ret (decide (p = s)) := by
  rw [Glob_eq_M, M_eq_decide p s h]

/-- C3 at the pattern `abc` and the subject `abcd`. -/
theorem Glob_no_wildcard_witness :
    42 ∉ bytes "abc" ∧
    Glob (bytes "abc") (bytes "abcd") = .ret (decide (bytes "abc" = bytes "abcd")) :=
  ⟨by decide, Glob_no_wildcard (bytes "abc") (bytes "abcd") (by decide)⟩

/-- C4: the pattern `*` matches every subject, the empty one included. -/
theorem Glob_wildcard_alone (s : Str) :
    Glob (bytes "*") s = .ret true ∧ Glob (bytes "*") [] = .ret true := by
  rw [bytes_star]
  exact ⟨by simp [Glob, GLOB], by decide⟩

/-- C5: the empty pattern matches the empty subject and no other. -/
theorem Glob_empty_pattern :
    Glob [] [] = .ret true ∧ ∀ s : Str, s ≠ [] → Glob [] s = .ret false := by
  refine ⟨by decide, ?_⟩
  intro s hs
  simp [Glob, hs]

/-- C5 at the subject `a`. -/
theorem Glob_empty_pattern_witness :
    bytes "a" ≠ [] ∧ Glob [] (bytes "a") = .ret false :=
  ⟨by decide, Glob_empty_pattern.2 (bytes "a") (by decide)⟩

/-- C6: a wildcard-free `p` followed by `*` matches every subject that starts
with `p`. -/
theorem Glob_trailing_wildcard (p s : Str) (hp : 42 ∉ p) (hs : p <+: s) :
    Glob (p ++ bytes "*") s = .ret true := by
  rw [bytes_star, Glob_true_iff_M, M_append_free p GLOB hp s]
  obtain ⟨t, rfl⟩ := hs
  exact ⟨t, rfl, M_star_nil t⟩

/-- C6 at `p = ab` and the subject `abcdef`. -/
theorem Glob_trailing_wildcard_witness :
    42 ∉ bytes "ab" ∧ bytes "ab" <+: bytes "abcdef" ∧
    Glob (bytes "ab" ++ bytes "*") (bytes "abcdef") = .ret true :=
  ⟨by decide, ⟨bytes "cdef", by decide⟩,
    Glob_trailing_wildcard (bytes "ab") (bytes "abcdef") (by decide) ⟨bytes "cdef", by decide⟩⟩

/-- C7: two consecutive wildcards anywhere in a pattern behave as one, and the
pattern `**` matches every subject. -/
theorem Glob_double_wildcard (p1 p2 s : Str) :
    Glob (p1 ++ bytes "**" ++ p2) s = Glob (p1 ++ bytes "*" ++ p2) s ∧
    Glob (bytes "**") s = .ret true := by
  rw [bytes_star, bytes_star_star]
  constructor
  · have e1 : p1 ++ (GLOB ++ GLOB) ++ p2 = p1 ++ (GLOB ++ GLOB ++ p2) := by simp
    have e2 : p1 ++ GLOB ++ p2 = p1 ++ (GLOB ++ p2) := by simp
    rw [Glob_eq_M, Glob_eq_M, e1, e2]
    congr 1
    exact M_congr p1 _ _ (fun t => M_star_star p2 t) s
  · rw [Glob_eq_M]
    congr 1
    have := M_star_star [] s
    simp only [List.append_nil] at this
    rw [this]
    exact M_star_nil s

/-- C8: when a pattern with at least one wildcard matches a subject, its first
segment (the text before its first `*`) is a prefix of the subject if the
pattern does not begin with `*`, and its last segment (the text after its last
`*`) is a suffix of the subject if the pattern does not end with `*`. -/
theorem Glob_anchored (p s : Str) (hstar : 42 ∈ p) (hm : Glob p s = .ret true) :
    (strings.Split p GLOB).head? = some (p.takeWhile (· != 42)) ∧
    (strings.Split p GLOB).getLast? = some (p.reverse.takeWhile (· != 42)).reverse ∧
    (strings.HasPrefix p GLOB = false → p.takeWhile (· != 42) <+: s) ∧
    (strings.HasSuffix p GLOB = false → (p.reverse.takeWhile (· != 42)).reverse <:+ s) := by
  obtain ⟨g0, mids, last, hseg⟩ := segments_shape p hstar
  have hfree := segments_free p
  have hj := joinStar_segments p
  have hd := (Glob_true_iff_Dec p s).1 hm
  rw [hseg] at hfree hj hd
  have hfirst := first_segment g0 (mids ++ [last]) (by simp) (hfree g0 (by simp))
  have hlast := last_segment (g0 :: mids) (by simp) last (hfree last (by simp))
  rw [List.cons_append] at hlast
  rw [hj] at hfirst hlast
  rw [Split_eq_segments, hseg, hfirst, hlast]
  refine ⟨rfl, ?_, fun _ => Dec_head g0 _ s hd, fun _ => Dec_last last (g0 :: mids) s hd⟩
  rw [← List.cons_append, List.getLast?_append]
  rfl

/-- C8 at the pattern `ab*ef` and the subject `abcdef`. -/
theorem Glob_anchored_witness :
    42 ∈ bytes "ab*ef" ∧ Glob (bytes "ab*ef") (bytes "abcdef") = .ret true ∧
    (strings.HasPrefix (bytes "ab*ef") GLOB = false →
      (bytes "ab*ef").takeWhile (· != 42) <+: bytes "abcdef") ∧
    (strings.HasSuffix (bytes "ab*ef") GLOB = false →
      ((bytes "ab*ef").reverse.takeWhile (· != 42)).reverse <:+ bytes "abcdef") :=
  ⟨by decide, by decide,
    (Glob_anchored (bytes "ab*ef") (bytes "abcdef") (by decide) (by decide)).2.2⟩

/-- C9: the greedy leftmost search of `Glob` returns, on every pattern and
subject, the answer of the backtracking matcher `M`, where `M` obeys the
recursion `M([], s) = (s = [])`,
`M('*'::p', s) = M(p', s) or (s non-empty and M('*'::p', tail s))` and
`M(c::p', s) = (s non-empty and head s = c and M(p', tail s))` for `c` not `*`. -/
theorem Glob_eq_backtracking (p s : Str) :
    Glob p s = .ret (M p s) ∧
    M [] s = decide (s = []) ∧
    ∀ (c : Nat) (q : Str), M (c :: q) s =
      if c = 42 then (M q s || (!s.isEmpty && M (c :: q) s.tail))
      else (!s.isEmpty && (s.head? == some c) && M q s.tail) := by
  refine ⟨Glob_eq_M p s, rfl, ?_⟩
  intro c q
  by_cases hc : c = 42
  · subst hc
    cases s <;> simp [M, starM]
  · cases s with
    | nil => simp [M, hc]
    | cons x t =>
      simp only [M, hc, if_false, List.isEmpty_cons, Bool.not_false, Bool.true_and,
        List.head?_cons, List.tail_cons]
      congr 1

/-- C10: the seven scenarios of the specification. -/
theorem Glob_scenarios :
    Glob (bytes "ab*") (bytes "abcdef") = .ret true ∧
    Glob (bytes "*ef") (bytes "abcdef") = .ret true ∧
    Glob (bytes "ab*ef") (bytes "abcdef") = .ret true ∧
    Glob (bytes "ab*yz") (bytes "abcdef") = .ret false ∧
    Glob (bytes "a*b*c") (bytes "azbzc") = .ret true ∧
    Glob (bytes "abc") (bytes "abcd") = .ret false ∧
    Glob (bytes "**") (bytes "anything") = .ret true := by
  refine ⟨?_, ?_, ?_, ?_, ?_, ?_, ?_⟩ <;> decide

/-! ## Helpers for the string-slice functions -/

theorem containsStrLoop_iff (q : Str) (s : List Str) : containsStrLoop q s = true ↔ q ∈ s := by
  induction s with
  | nil => simp [containsStrLoop]
  | cons x xs ih =>
    unfold containsStrLoop
    by_cases h : q = x
    · simp [h]
    · simp [h, ih]

theorem containsInner_iff (x : Str) (s : List Str) : containsInner x s = true ↔ x ∈ s := by
  induction s with
  | nil => simp [containsInner]
  | cons y ys ih =>
    unfold containsInner
    by_cases h : y = x
    · simp [h]
    · have h' : ¬ x = y := fun e => h e.symm
      simp [h, h', ih]

theorem containsOuter_iff (s q : List Str) :
    containsOuter s q = true ↔ ∃ x, x ∈ q ∧ x ∈ s := by
  induction q with
  | nil => simp [containsOuter]
  | cons x xs ih =>
    unfold containsOuter
    by_cases h : containsInner x s = true
    · simp only [h, if_true, true_iff]
      exact ⟨x, List.mem_cons_self _ _, (containsInner_iff x s).1 h⟩
    · simp only [h, Bool.false_eq_true, if_false, ih]
      constructor
      · rintro ⟨y, hy, hs⟩
        exact ⟨y, List.mem_cons_of_mem _ hy, hs⟩
      · rintro ⟨y, hy, hs⟩
        rcases List.mem_cons.1 hy with rfl | hy
        · exact absurd ((containsInner_iff y s).2 hs) h
        · exact ⟨y, hy, hs⟩

theorem deleteLoop_eq (q : Str) (s r : List Str) :
    deleteLoop q s r = r ++ s.filter (fun x => x != q) := by
  induction s generalizing r with
  | nil => simp [deleteLoop]
  | cons x xs ih =>
    unfold deleteLoop
    by_cases h : x = q
    · simp [h, ih]
    · simp [h, ih]

theorem DeleteElement_eq (s : List Str) (q : Str) :
    DeleteElement s q = s.filter (fun x => x != q) := by
  unfold DeleteElement
  by_cases h : s.length = 0
  · have : s = [] := List.length_eq_zero.1 h
    simp [this]
  · simp [h, deleteLoop_eq]

theorem indexLoop_mem (q : Str) (s : List Str) (k : Nat) (h : q ∈ s) :
    ∃ i : Nat, indexLoop q k s = ((k + i : Nat) : Int) ∧ i < s.length ∧ s[i]? = some q ∧
      ∀ j, j < i → s[j]? ≠ some q := by
  induction s generalizing k with
  | nil => simp at h
  | cons v vs ih =>
    unfold indexLoop
    by_cases hv : v = q
    · exact ⟨0, by simp [hv], by simp, by simp [hv], fun j hj => absurd hj (Nat.not_lt_zero j)⟩
    · have hq : q ∈ vs := by
        rcases List.mem_cons.1 h with e | e
        · exact absurd e.symm hv
        · exact e
      obtain ⟨i, hi, hlt, hget, hmin⟩ := ih (k + 1) hq
      refine ⟨i + 1, ?_, by simpa using hlt, by simpa using hget, ?_⟩
      · simp only [hv, if_false, hi]
        push_cast
        omega
      · intro j hj
        cases j with
        | zero => simpa using hv
        | succ j => simpa using hmin j (by omega)

theorem indexLoop_not_mem (q : Str) (s : List Str) (k : Nat) (h : q ∉ s) :
    indexLoop q k s = -1 := by
  induction s generalizing k with
  | nil => rfl
  | cons v vs ih =>
    unfold indexLoop
    have hv : ¬ v = q := fun e => h (by simp [e])
    simp only [hv, if_false]
    exact ih (k + 1) (fun e => h (List.mem_cons_of_mem _ e))

theorem M_star_front (p s : Str) (h : M p s = true) : M (GLOB ++ p) s = true := by
  simp only [GLOB, List.cons_append, List.nil_append, M, if_true]
  exact (starM_iff _ _).2 ⟨[], s, rfl, h⟩

theorem M_star_back (p : Str) : ∀ s, M p s = true → M (p ++ GLOB) s = true := by
  induction p with
  | nil =>
    intro s h
    simp only [M, decide_eq_true_iff] at h
    subst h
    exact M_star_nil []
  | cons c p ih =>
    intro s h
    by_cases hc : c = 42
    · subst hc
      simp only [List.cons_append, M, if_true] at h ⊢
      obtain ⟨w, t, rfl, ht⟩ := (starM_iff _ _).1 h
      exact (starM_iff _ _).2 ⟨w, t, rfl, ih t ht⟩
    · cases s with
      | nil => simp [M, hc] at h
      | cons x t =>
        simp only [List.cons_append, M, hc, if_false, Bool.and_eq_true,
          decide_eq_true_iff] at h ⊢
        exact ⟨h.1, ih t h.2⟩

/-! ## UTF-8: decoding what was encoded -/

theorem utf8_length_pos (c : Nat) : 1 ≤ (utf8 c).length := by
  unfold utf8
  split_ifs <;> simp

theorem DecodeRune_two (s0 s1 : Nat) (rest : Str) (h0 : 194 ≤ s0 ∧ s0 < 224)
    (h1 : 128 ≤ s1 ∧ s1 ≤ 191) :
    DecodeRune (s0 :: s1 :: rest) = (((s0 % 32 * 64 + s1 % 64 : Nat) : Int), 2) := by
  simp only [DecodeRune]
  rw [if_neg (by omega), if_neg (by omega), if_pos (by omega), if_pos h1]

theorem DecodeRune_three (s0 s1 s2 : Nat) (rest : Str) (h0 : 224 ≤ s0 ∧ s0 < 240)
    (h1 : (if s0 = 224 then 160 else 128) ≤ s1 ∧ s1 ≤ (if s0 = 237 then 159 else 191))
    (h2 : 128 ≤ s2 ∧ s2 ≤ 191) :
    DecodeRune (s0 :: s1 :: s2 :: rest)
      = (((s0 % 16 * 4096 + s1 % 64 * 64 + s2 % 64 : Nat) : Int), 3) := by
  simp only [DecodeRune]
  rw [if_neg (by omega), if_neg (by omega), if_neg (by omega), if_pos (by omega), if_pos h1,
    if_pos h2]

theorem DecodeRune_four (s0 s1 s2 s3 : Nat) (rest : Str) (h0 : 240 ≤ s0 ∧ s0 < 245)
    (h1 : (if s0 = 240 then 144 else 128) ≤ s1 ∧ s1 ≤ (if s0 = 244 then 143 else 191))
    (h2 : 128 ≤ s2 ∧ s2 ≤ 191) (h3 : 128 ≤ s3 ∧ s3 ≤ 191) :
    DecodeRune (s0 :: s1 :: s2 :: s3 :: rest)
      = (((s0 % 8 * 262144 + s1 % 64 * 4096 + s2 % 64 * 64 + s3 % 64 : Nat) : Int), 4) := by
  simp only [DecodeRune]
  rw [if_neg (by omega), if_neg (by omega), if_neg (by omega), if_neg (by omega),
    if_pos (by omega), if_pos h1, if_pos h2, if_pos h3]

theorem DecodeRune_utf8 (c : Nat) (hc : Scalar c) (rest : Str) :
    DecodeRune (utf8 c ++ rest) = ((c : Int), (utf8 c).length) := by
  unfold Scalar at hc
  unfold utf8
  split_ifs with h1 h2 h3
  · simp [DecodeRune, h1]
  · simp only [List.cons_append, List.nil_append]
    rw [DecodeRune_two _ _ _ (by omega) (by omega)]
    have : (192 + c / 64) % 32 * 64 + (128 + c % 64) % 64 = c := by omega
    rw [this]
    rfl
  · simp only [List.cons_append, List.nil_append]
    rw [DecodeRune_three _ _ _ _ (by omega) (by split_ifs <;> omega) (by omega)]
    have : (224 + c / 4096) % 16 * 4096 + (128 + c / 64 % 64) % 64 * 64 + (128 + c % 64) % 64
        = c := by omega
    rw [this]
    rfl
  · simp only [List.cons_append, List.nil_append]
    rw [DecodeRune_four _ _ _ _ _ (by omega) (by split_ifs <;> omega) (by omega) (by omega)]
    have : (240 + c / 262144) % 8 * 262144 + (128 + c / 4096 % 64) % 64 * 4096
        + (128 + c / 64 % 64) % 64 * 64 + (128 + c % 64) % 64 = c := by omega
    rw [this]
    rfl

theorem DecodeRune_width_pos (s : Str) (hs : s ≠ []) : 1 ≤ (DecodeRune s).2 := by
  cases s with
  | nil => exact absurd rfl hs
  | cons s0 t =>
    simp only [DecodeRune]
    repeat' split
    all_goals simp

theorem EncodeRune_scalar (c : Nat) (hc : Scalar c) : EncodeRune (c : Int) = utf8 c := by
  unfold Scalar at hc
  have : ValidRune (c : Int) = true := by
    unfold ValidRune
    simp only [Bool.or_eq_true, Bool.and_eq_true, decide_eq_true_iff]
    show ((0 : Int) ≤ (c : Int) ∧ (c : Int) < 55296) ∨
      ((57343 : Int) < (c : Int) ∧ (c : Int) ≤ 1114111)
    omega
  simp [EncodeRune, this]


theorem encode_cons (c : Nat) (cs : List Nat) : encode (c :: cs) = utf8 c ++ encode cs := by
  simp [encode]

theorem encode_append (xs ys : List Nat) : encode (xs ++ ys) = encode xs ++ encode ys := by
  simp [encode]

theorem utf8_ne_nil (c : Nat) : utf8 c ≠ [] := by
  intro h
  have := utf8_length_pos c
  rw [h] at this
  simp at this

theorem stringOfRunes_scalars (cps : List Nat) (h : ∀ c ∈ cps, Scalar c) :
    stringOfRunes (cps.map fun (c : Nat) => (c : Int)) = encode cps := by
  induction cps with
  | nil => rfl
  | cons c cs ih =>
    have hc := h c (List.mem_cons_self _ _)
    have ih' := ih (fun x hx => h x (List.mem_cons_of_mem _ hx))
    simp only [stringOfRunes, List.map_cons, List.flatMap_cons] at ih' ⊢
    rw [ih', EncodeRune_scalar c hc, encode_cons]

theorem rangeFrom_encode (cps : List Nat) (h : ∀ c ∈ cps, Scalar c) :
    ∀ fuel i, (encode cps).length ≤ fuel →
      (rangeFrom fuel i (encode cps)).map Prod.snd = cps.map fun (c : Nat) => (c : Int) := by
  induction cps with
  | nil =>
    intro fuel i _
    cases fuel <;> simp [rangeFrom, encode]
  | cons c cs ih =>
    intro fuel i hfuel
    have hc := h c (List.mem_cons_self _ _)
    have hpos := utf8_length_pos c
    rw [encode_cons] at hfuel ⊢
    simp only [List.length_append] at hfuel
    cases fuel with
    | zero => omega
    | succ fuel =>
      have hne : utf8 c ++ encode cs ≠ [] := by simp [utf8_ne_nil]
      unfold rangeFrom
      simp only [hne, if_false, DecodeRune_utf8 c hc, List.map_cons, List.drop_left]
      rw [ih (fun x hx => h x (List.mem_cons_of_mem _ hx)) fuel _ (by omega)]

theorem rangeFrom_length : ∀ (fuel i : Nat) (s : Str), (rangeFrom fuel i s).length ≤ s.length := by
  intro fuel
  induction fuel with
  | zero => intro i s; simp [rangeFrom]
  | succ fuel ih =>
    intro i s
    unfold rangeFrom
    by_cases hs : s = []
    · simp [hs]
    · have hw := DecodeRune_width_pos s hs
      have hl : 0 < s.length := List.length_pos.2 hs
      have := ih (i + (DecodeRune s).2) (s.drop (DecodeRune s).2)
      simp only [hs, if_false, List.length_cons, List.length_drop] at this ⊢
      omega

/-! ## `Reverse` fills its buffer from the back -/

theorem reverseLoop_fill (rs : List (Nat × Int)) :
    ∀ (k : Nat) (filled : List Int), rs.length ≤ k →
      reverseLoop rs (k : Int) (List.replicate k 0 ++ filled) =
        some (((k - rs.length : Nat) : Int),
          List.replicate (k - rs.length) 0 ++ ((rs.map Prod.snd).reverse ++ filled)) := by
  induction rs with
  | nil => intro k filled _; simp [reverseLoop]
  | cons x rest ih =>
    intro k filled hk
    obtain ⟨i, r⟩ := x
    simp only [List.length_cons] at hk
    obtain ⟨m, rfl⟩ : ∃ m, k = m + 1 := ⟨k - 1, by omega⟩
    unfold reverseLoop
    have e1 : ((m + 1 : Nat) : Int) - 1 = (m : Int) := by push_cast; omega
    have hb : (0 : Int) ≤ (m : Int) ∧
        (m : Int) < ((List.replicate (m + 1) (0 : Int) ++ filled).length : Int) := by
      simp only [List.length_append, List.length_replicate]
      push_cast
      omega
    simp only [e1, hb, and_self, if_true, Int.toNat_ofNat]
    have hset : (List.replicate (m + 1) (0 : Int) ++ filled).set m r
        = List.replicate m 0 ++ (r :: filled) := by
      rw [List.replicate_succ', List.append_assoc,
        List.set_append_right _ _ (by simp)]
      simp
    rw [hset, ih m (r :: filled) (by omega)]
    have e2 : m + 1 - (rest.length + 1) = m - rest.length := by omega
    simp [e2]

theorem Reverse_eq (s : Str) :
    Reverse s = some (stringOfRunes ((rangeString s).map Prod.snd).reverse) := by
  have hlen : (rangeString s).length ≤ s.length := rangeFrom_length _ _ _
  have h := reverseLoop_fill (rangeString s) s.length [] hlen
  simp only [List.append_nil] at h
  unfold Reverse
  simp only [h]
  have hsl : runesFrom
      (List.replicate (s.length - (rangeString s).length) 0 ++
        ((rangeString s).map Prod.snd).reverse)
      ((s.length - (rangeString s).length : Nat) : Int)
      = some ((rangeString s).map Prod.snd).reverse := by
    unfold runesFrom
    have hb : (0 : Int) ≤ ((s.length - (rangeString s).length : Nat) : Int) ∧
        ((s.length - (rangeString s).length : Nat) : Int) ≤
          ((List.replicate (s.length - (rangeString s).length) (0 : Int) ++
            ((rangeString s).map Prod.snd).reverse).length : Int) := by
      simp only [List.length_append, List.length_replicate]
      push_cast
      omega
    rw [if_pos hb]
    simp
  rw [hsl]

/-! ## UTF-8: an encoded code point is found only where it was written -/

theorem utf8_head (r : Nat) :
    ∃ h t, utf8 r = h :: t ∧ (h < 128 ∨ 192 ≤ h) := by
  unfold utf8
  split_ifs
  · exact ⟨_, _, rfl, by omega⟩
  · exact ⟨_, _, rfl, by omega⟩
  · exact ⟨_, _, rfl, by omega⟩
  · exact ⟨_, _, rfl, by omega⟩

theorem utf8_tail (c : Nat) : ∀ x ∈ (utf8 c).tail, 128 ≤ x ∧ x < 192 := by
  unfold utf8
  split_ifs
  · simp
  · simp only [List.tail_cons, List.mem_singleton]
    intro x hx
    omega
  · simp only [List.tail_cons, List.mem_cons, List.mem_singleton, List.not_mem_nil, or_false]
    intro x hx
    omega
  · simp only [List.tail_cons, List.mem_cons, List.mem_singleton, List.not_mem_nil, or_false]
    intro x hx
    omega

theorem utf8_prefix_inj (c r : Nat) (hc : Scalar c) (hr : Scalar r) (x y : Str)
    (h : utf8 c ++ x = utf8 r ++ y) : c = r := by
  have h1 := DecodeRune_utf8 c hc x
  have h2 := DecodeRune_utf8 r hr y
  rw [h, h2] at h1
  have := congrArg Prod.fst h1
  simp only at this
  exact_mod_cast this.symm

theorem occurs_of_mem (cps : List Nat) (r : Nat) (h : r ∈ cps) :
    ∃ a b, encode cps = a ++ utf8 r ++ b := by
  obtain ⟨l1, l2, rfl⟩ := List.append_of_mem h
  exact ⟨encode l1, encode l2, by rw [encode_append, encode_cons, List.append_assoc]⟩

/-- UTF-8 is self-synchronising: the bytes of a code point occur in a valid
string only as one of its code points. -/
theorem mem_of_occurs (r : Nat) (hr : Scalar r) (cps : List Nat) (h : ∀ c ∈ cps, Scalar c) :
    ∀ a b, encode cps = a ++ utf8 r ++ b → r ∈ cps := by
  induction cps with
  | nil =>
    intro a b hab
    exfalso
    have := congrArg List.length hab
    have hp := utf8_length_pos r
    simp only [encode, List.flatMap_nil, List.length_nil, List.length_append] at this
    omega
  | cons c cs ih =>
    intro a b hab
    have hc := h c (List.mem_cons_self _ _)
    have ih' := ih (fun x hx => h x (List.mem_cons_of_mem _ hx))
    rw [encode_cons, List.append_assoc] at hab
    rcases List.append_eq_append_iff.1 hab with ⟨a', ha, hrest⟩ | ⟨c', hu, hrest⟩
    · -- the instance starts after the bytes of `c`
      exact List.mem_cons_of_mem _ (ih' a' b (by rw [hrest, List.append_assoc]))
    · -- the instance starts inside the bytes of `c`
      cases a with
      | nil =>
        have : c = r := utf8_prefix_inj c r hc hr (encode cs) b (by simpa using hab)
        rw [this]
        exact List.mem_cons_self _ _
      | cons a0 a' =>
        cases c' with
        | nil =>
          -- the bytes of `c` end where the instance starts
          exact List.mem_cons_of_mem _ (ih' [] b (by simpa using hrest.symm))
        | cons x c'' =>
          exfalso
          obtain ⟨hd, tl, hut, hlead⟩ := utf8_head r
          rw [hut] at hrest
          have hx : x ∈ (utf8 c).tail := by
            rw [hu]
            simp
          have hxc := utf8_tail c x hx
          simp only [List.cons_append, List.cons.injEq] at hrest
          omega

/-! ## `strings.IndexRune` and `strings.Map` on valid UTF-8 -/

theorem Index_nonneg_iff (s sub : Str) :
    0 ≤ strings.Index s sub ↔ ∃ a b, s = a ++ sub ++ b := by
  constructor
  · intro h
    obtain ⟨a, b, hab, _⟩ := Index_found s sub h
    exact ⟨a, b, hab⟩
  · rintro ⟨a, b, rfl⟩
    exact (Index_le a sub b).1

theorem Index_utf8_neg_iff (chs : List Nat) (hchs : ∀ c ∈ chs, Scalar c) (r : Nat)
    (hr : Scalar r) : strings.Index (encode chs) (utf8 r) < 0 ↔ r ∉ chs := by
  rw [← not_iff_not, not_not, not_lt, Index_nonneg_iff]
  constructor
  · rintro ⟨a, b, hab⟩
    exact mem_of_occurs r hr chs hchs a b hab
  · exact occurs_of_mem chs r

theorem indexError_neg_iff (l : List (Nat × Int)) :
    strings.indexError l < 0 ↔ RuneError ∉ l.map Prod.snd := by
  induction l with
  | nil => simp [strings.indexError]
  | cons x rest ih =>
    obtain ⟨i, r⟩ := x
    unfold strings.indexError
    by_cases h : r = RuneError
    · simp only [h, if_true, List.map_cons, List.mem_cons, true_or, not_true_eq_false,
        iff_false, not_lt]
      exact Int.ofNat_nonneg i
    · have h' : ¬ RuneError = r := fun e => h e.symm
      simp only [h, if_false, ih, List.map_cons, List.mem_cons, h', false_or]

theorem IndexRune_neg_iff (chs : List Nat) (hchs : ∀ c ∈ chs, Scalar c) (r : Nat)
    (hr : Scalar r) : strings.IndexRune (encode chs) (r : Int) < 0 ↔ r ∉ chs := by
  unfold strings.IndexRune
  by_cases h1 : r < 128
  · have hb : (0 : Int) ≤ (r : Int) ∧ (r : Int) < 128 := by omega
    have hu : utf8 r = [r] := by simp [utf8, h1]
    rw [if_pos hb]
    unfold strings.IndexByte
    rw [Int.toNat_ofNat, ← hu]
    exact Index_utf8_neg_iff chs hchs r hr
  · have hb : ¬ ((0 : Int) ≤ (r : Int) ∧ (r : Int) < 128) := by omega
    rw [if_neg hb]
    by_cases h2 : r = 65533
    · have he : ((r : Nat) : Int) = RuneError := by simp [h2, RuneError]
      rw [if_pos he, indexError_neg_iff]
      unfold rangeString
      rw [rangeFrom_encode chs hchs _ _ (le_refl _), h2]
      simp only [RuneError, List.mem_map, not_exists, not_and]
      constructor
      · intro hall hm
        exact hall 65533 hm rfl
      · intro hnm x hx e
        have : x = 65533 := by omega
        exact hnm (this ▸ hx)
    · have he : ¬ ((r : Nat) : Int) = RuneError := by
        unfold RuneError
        omega
      have hv : ValidRune (r : Int) = true := by
        unfold Scalar at hr
        unfold ValidRune
        simp only [Bool.or_eq_true, Bool.and_eq_true, decide_eq_true_iff]
        show ((0 : Int) ≤ (r : Int) ∧ (r : Int) < 55296) ∨
          ((57343 : Int) < (r : Int) ∧ (r : Int) ≤ 1114111)
        omega
      rw [if_neg he]
      simp only [hv, Bool.not_true, Bool.false_eq_true, if_false]
      rw [EncodeRune_scalar r hr]
      exact Index_utf8_neg_iff chs hchs r hr

theorem write_scalar (c : Nat) (hc : Scalar c) :
    (if (c : Int) < 128 then [((c : Int)).toNat] else EncodeRune (c : Int)) = utf8 c := by
  by_cases h : c < 128
  · have : (c : Int) < 128 := by omega
    simp [this, utf8, h]
  · have : ¬ (c : Int) < 128 := by omega
    rw [if_neg this, EncodeRune_scalar c hc]

theorem mapRest_encode (f : Int → Int) (keep : Nat → Bool)
    (hkeep : ∀ c : Nat, Scalar c → keep c = true → f (c : Int) = (c : Int))
    (hdrop : ∀ c : Nat, Scalar c → keep c = false → f (c : Int) < 0)
    (cps : List Nat) (h : ∀ c ∈ cps, Scalar c) :
    ∀ fuel, (encode cps).length ≤ fuel →
      strings.mapRest f fuel (encode cps) = encode (cps.filter keep) := by
  induction cps with
  | nil =>
    intro fuel _
    cases fuel <;> simp [strings.mapRest, encode]
  | cons c cs ih =>
    intro fuel hfuel
    have hc := h c (List.mem_cons_self _ _)
    have hpos := utf8_length_pos c
    rw [encode_cons] at hfuel ⊢
    simp only [List.length_append] at hfuel
    cases fuel with
    | zero => omega
    | succ fuel =>
      have hne : utf8 c ++ encode cs ≠ [] := by simp [utf8_ne_nil]
      have ih' := ih (fun x hx => h x (List.mem_cons_of_mem _ hx)) fuel (by omega)
      unfold strings.mapRest
      simp only [hne, if_false, DecodeRune_utf8 c hc, List.drop_left, ih']
      cases hk : keep c with
      | true =>
        have hf := hkeep c hc hk
        have h0 : (0 : Int) ≤ (c : Int) := by omega
        rw [hf, if_pos h0, write_scalar c hc, List.filter_cons_of_pos hk, encode_cons]
      | false =>
        have hf := hdrop c hc hk
        rw [if_neg (by omega), List.filter_cons_of_neg (by simp [hk])]
        simp

theorem utf8_width_of_error (c : Nat) (hc : (c : Int) = RuneError) : (utf8 c).length ≠ 1 := by
  have : c = 65533 := by
    unfold RuneError at hc
    omega
  subst this
  decide

theorem mapScan_encode (f : Int → Int) (keep : Nat → Bool)
    (hkeep : ∀ c : Nat, Scalar c → keep c = true → f (c : Int) = (c : Int))
    (hdrop : ∀ c : Nat, Scalar c → keep c = false → f (c : Int) < 0)
    (cps : List Nat) (h : ∀ c ∈ cps, Scalar c) :
    ∀ fuel, (encode cps).length ≤ fuel →
      strings.mapScan f fuel (encode cps) = encode (cps.filter keep) := by
  induction cps with
  | nil =>
    intro fuel _
    cases fuel <;> simp [strings.mapScan, encode]
  | cons c cs ih =>
    intro fuel hfuel
    have hc := h c (List.mem_cons_self _ _)
    have hcs : ∀ x ∈ cs, Scalar x := fun x hx => h x (List.mem_cons_of_mem _ hx)
    have hpos := utf8_length_pos c
    rw [encode_cons] at hfuel ⊢
    simp only [List.length_append] at hfuel
    cases fuel with
    | zero => omega
    | succ fuel =>
      have hne : utf8 c ++ encode cs ≠ [] := by simp [utf8_ne_nil]
      unfold strings.mapScan
      simp only [hne, if_false, DecodeRune_utf8 c hc, List.drop_left, List.take_left]
      cases hk : keep c with
      | true =>
        have hf := hkeep c hc hk
        have hcond : f (c : Int) = (c : Int) ∧
            ((c : Int) ≠ RuneError ∨ (utf8 c).length ≠ 1) := by
          refine ⟨hf, ?_⟩
          by_cases he : (c : Int) = RuneError
          · exact Or.inr (utf8_width_of_error c he)
          · exact Or.inl he
        rw [if_pos hcond, ih hcs fuel (by omega), List.filter_cons_of_pos hk, encode_cons]
      | false =>
        have hf := hdrop c hc hk
        have hcond : ¬ (f (c : Int) = (c : Int) ∧
            ((c : Int) ≠ RuneError ∨ (utf8 c).length ≠ 1)) := by
          rintro ⟨e, _⟩
          omega
        rw [if_neg hcond, if_neg (by omega),
          mapRest_encode f keep hkeep hdrop cs hcs fuel (by omega),
          List.filter_cons_of_neg (by simp [hk])]
        simp

theorem StripChars_encode (cps chs : List Nat) (hcps : ∀ c ∈ cps, Scalar c)
    (hchs : ∀ c ∈ chs, Scalar c) :
    StripChars (encode cps) (encode chs) = encode (cps.filter fun c => decide (c ∉ chs)) := by
  unfold StripChars strings.Map
  apply mapScan_encode _ _ _ _ cps hcps _ (le_refl _)
  · intro c hc hk
    have := (IndexRune_neg_iff chs hchs c hc).2 (by simpa using hk)
    simp [this]
  · intro c hc hk
    have hmem : c ∈ chs := by simpa using hk
    have : ¬ strings.IndexRune (encode chs) (c : Int) < 0 :=
      fun hneg => (IndexRune_neg_iff chs hchs c hc).1 hneg hmem
    simp [this]

/-! ## The properties of the string helpers -/

/-- C11: the code misses the claim, and its own docstring, at the empty
string: `""` is an element of the slice `["", "a"]`, yet `ContainsStr` returns
false for it, through its opening test `len(q) == 0`.  The sibling functions
treat `""` as any other element there: `Contains` finds it and `Index`
returns its position 0. -/
theorem ContainsStr_empty_query :
    bytes "" ∈ [bytes "", bytes "a"] ∧
    ContainsStr [bytes "", bytes "a"] (bytes "") = false ∧
    Contains [bytes "", bytes "a"] [bytes ""] = true ∧
    Index [bytes "", bytes "a"] (bytes "") = 0 := by
  decide

/-- What `ContainsStr` computes: membership of `q` in `s` for every non-empty
`q`, and false for the empty `q`; the empty query is the only input on which it
departs from membership. -/
theorem ContainsStr_iff (s : List Str) (q : Str) :
    ContainsStr s q = decide (q ≠ [] ∧ q ∈ s) := by
  unfold ContainsStr
  by_cases hq : q = []
  · simp [hq]
  · by_cases hs : s = []
    · simp [hs]
    · have h1 : ¬ (q.length = 0 ∨ s.length = 0) := by
        simp [List.length_eq_zero, hq, hs]
      rw [if_neg h1, Bool.eq_iff_iff, containsStrLoop_iff]
      simp [hq]

/-- C12: `Contains(s, q)` returns true if and only if some string is an element
of both `q` and `s`; it returns false when either slice is empty. -/
theorem Contains_iff (s q : List Str) :
    (Contains s q = true ↔ ∃ x, x ∈ q ∧ x ∈ s) ∧
    Contains [] q = false ∧ Contains s [] = false := by
  refine ⟨?_, by simp [Contains], by simp [Contains]⟩
  unfold Contains
  by_cases h : q.length = 0 ∨ s.length = 0
  · rw [if_pos h]
    simp only [Bool.false_eq_true, false_iff, not_exists, not_and]
    intro x hq hs
    rcases h with h | h
    · rw [List.length_eq_zero.1 h] at hq
      simp at hq
    · rw [List.length_eq_zero.1 h] at hs
      simp at hs
  · rw [if_neg h]
    exact containsOuter_iff s q

/-- C13: `DeleteElement(s, q)` is the elements of `s` that differ from `q`, in
their order: it holds no `q`, and every other string as often as `s` does;
`DeleteEmpty(s)` is `DeleteElement(s, "")`, the non-empty strings of `s` in
their order. -/
theorem DeleteElement_filter (s : List Str) (q : Str) :
    DeleteElement s q = s.filter (fun x => x != q) ∧
    q ∉ DeleteElement s q ∧
    (∀ x, x ≠ q → (DeleteElement s q).count x = s.count x) ∧
    DeleteEmpty s = DeleteElement s (bytes "") ∧
    DeleteEmpty s = s.filter (fun x => x != []) := by
  refine ⟨DeleteElement_eq s q, ?_, ?_, rfl, DeleteElement_eq s []⟩
  · rw [DeleteElement_eq]
    simp [List.mem_filter]
  · intro x hx
    rw [DeleteElement_eq, List.count_filter]
    simpa using hx

/-- C14: when `q` occurs in `s`, `Index(s, q)` is the least position of `s`
that holds `q`; `Index(s, q)` is -1 if and only if `q` does not occur in `s`. -/
theorem Index_least (s : List Str) (q : Str) :
    (q ∈ s → ∃ i : Nat, Index s q = (i : Int) ∧ i < s.length ∧ s[i]? = some q ∧
      ∀ j, j < i → s[j]? ≠ some q) ∧
    (Index s q = -1 ↔ q ∉ s) := by
  unfold Index
  constructor
  · intro h
    obtain ⟨i, hi, hlt, hget, hmin⟩ := indexLoop_mem q s 0 h
    exact ⟨i, by simpa using hi, hlt, hget, hmin⟩
  · constructor
    · intro h hm
      obtain ⟨i, hi, _⟩ := indexLoop_mem q s 0 hm
      rw [hi] at h
      omega
    · exact indexLoop_not_mem q s 0

/-- C14 at the slice `["b", "a", "a"]` and the string `a`. -/
theorem Index_least_witness :
    bytes "a" ∈ [bytes "b", bytes "a", bytes "a"] ∧
    ∃ i : Nat, Index [bytes "b", bytes "a", bytes "a"] (bytes "a") = (i : Int) ∧
      i < [bytes "b", bytes "a", bytes "a"].length ∧
      [bytes "b", bytes "a", bytes "a"][i]? = some (bytes "a") ∧
      ∀ j, j < i → [bytes "b", bytes "a", bytes "a"][j]? ≠ some (bytes "a") :=
  ⟨by decide, (Index_least [bytes "b", bytes "a", bytes "a"] (bytes "a")).1 (by decide)⟩

/-- C15: on the UTF-8 string with the code points `cps`, `Reverse` returns the
UTF-8 string with those code points in reverse order; on every string it
returns without a fault (the counter `n` stays within the buffer), and what it
returns is exactly the runes its loop stored, last one first. -/
theorem Reverse_code_points (cps : List Nat) (hcps : ∀ c ∈ cps, Scalar c) (s : Str) :
    Reverse (encode cps) = some (encode cps.reverse) ∧
    Reverse s = some (stringOfRunes ((rangeString s).map Prod.snd).reverse) := by
  refine ⟨?_, Reverse_eq s⟩
  rw [Reverse_eq]
  unfold rangeString
  rw [rangeFrom_encode cps hcps _ _ (le_refl _), ← List.map_reverse,
    stringOfRunes_scalars cps.reverse (fun c hc => hcps c (List.mem_reverse.1 hc))]

/-- C15 at the string `hé€`, whose code points are 104, 233 and 8364. -/
theorem Reverse_code_points_witness :
    (∀ c ∈ [104, 233, 8364], Scalar c) ∧ encode [104, 233, 8364] = bytes "hé€" ∧
    Reverse (bytes "hé€") = some (bytes "€éh") :=
  ⟨by decide, by decide,
    (Reverse_code_points [104, 233, 8364] (by decide) []).1⟩

/-- C16: on UTF-8 strings with the code points `cps` and `chs`, `StripChars`
returns the UTF-8 string with the code points of `cps` that do not occur in
`chs`, in their order; no character of `chs` occurs in it; and with an empty
`chr` it returns `str`. -/
theorem StripChars_filter (cps chs : List Nat) (hcps : ∀ c ∈ cps, Scalar c)
    (hchs : ∀ c ∈ chs, Scalar c) :
    StripChars (encode cps) (encode chs) = encode (cps.filter fun c => decide (c ∉ chs)) ∧
    (∀ c ∈ chs, ¬ ∃ a b, StripChars (encode cps) (encode chs) = a ++ utf8 c ++ b) ∧
    StripChars (encode cps) (bytes "") = encode cps := by
  refine ⟨StripChars_encode cps chs hcps hchs, ?_, ?_⟩
  · rintro c hc ⟨a, b, hab⟩
    rw [StripChars_encode cps chs hcps hchs] at hab
    have hmem := mem_of_occurs c (hchs c hc) _
      (fun x hx => hcps x (List.mem_of_mem_filter hx)) a b hab
    have := (List.mem_filter.1 hmem).2
    simp only [decide_eq_true_iff] at this
    exact this hc
  · have h := StripChars_encode cps [] hcps (by simp)
    simpa using h

/-- C16 at `str = héllo` and `chr = lö`. -/
theorem StripChars_filter_witness :
    (∀ c ∈ [104, 233, 108, 108, 111], Scalar c) ∧ (∀ c ∈ [108, 246], Scalar c) ∧
    encode [104, 233, 108, 108, 111] = bytes "héllo" ∧ encode [108, 246] = bytes "lö" ∧
    StripChars (encode [104, 233, 108, 108, 111]) (encode [108, 246]) = bytes "héo" :=
  ⟨by decide, by decide, by decide, by decide,
    (StripChars_filter [104, 233, 108, 108, 111] [108, 246] (by decide) (by decide)).1⟩

/-- C17: a wildcard added at either end of a pattern only widens what it
accepts: if `Glob(p, s)` is true then so are `Glob(p ++ "*", s)` and
`Glob("*" ++ p, s)`. -/
theorem Glob_widen (p s : Str) (h : Glob p s = .ret true) :
    Glob (p ++ bytes "*") s = .ret true ∧ Glob (bytes "*" ++ p) s = .ret true := by
  rw [bytes_star]
  rw [Glob_true_iff_M] at h
  exact ⟨(Glob_true_iff_M _ _).2 (M_star_back p s h), (Glob_true_iff_M _ _).2 (M_star_front p s h)⟩

/-- C17 at the pattern `a*c` and the subject `abc`. -/
theorem Glob_widen_witness :
    Glob (bytes "a*c") (bytes "abc") = .ret true ∧
    Glob (bytes "a*c" ++ bytes "*") (bytes "abc") = .ret true ∧
    Glob (bytes "*" ++ bytes "a*c") (bytes "abc") = .ret true :=
  ⟨by decide, Glob_widen (bytes "a*c") (bytes "abc") (by decide)⟩

end Fwew
